import Mathlib

/-!
Verification of the galaxypad PAD recorder (`galaxypad/pad.py`).

Shallow embedding conventions:
* Byte buffers (Python `bytes` / `bytearray`) are `List Nat`; where a claim
  needs byte-ness, the hypothesis `∀ b ∈ data, b < 256` is carried explicitly.
* Python integers are `Nat` where they stay non-negative and `Int` where the
  source can produce negative values (the checksum accumulator `lo`, and the
  bitwise complement `~`).
* Python `x & 0xFFFF` on a possibly-negative arbitrary-precision integer is
  the Euclidean remainder `Int.emod x 65536`; on non-negative values it is
  `Nat.mod`.  Python `~n` is `Int.lnot n = -(n+1)`.
* The unbounded `while True` loop of `dolphin_read_cstring` is modelled with
  an explicit step budget (`fuel`); `none` means the loop has not returned
  within that many iterations.  The source has no bound of its own.
* `None`-returning fallible code is modelled with `Except`, mapping each
  distinct error message of the source to a distinct error constructor.
-/

namespace GalaxyPad

/-- Constants from `pad.py` (`PadRecord.h` layout). -/
def RECORDER_MODE_WAITING : Nat := 0

def RECORDER_MODE_PREPARING : Nat := 1

def RECORDER_MODE_RECORDING : Nat := 2

def RECORDER_MODE_STOPPED : Nat := 3

def OFFSET_UPDATE_FRAME : Nat := 0x00

def OFFSET_READ_DATA_INFO : Nat := 0x04

def OFFSET_RECORDER_MODE : Nat := 0x08

def OFFSET_STAGE_NAME_PTR : Nat := 0x0C

def OFFSET_RESTART_ID : Nat := 0x10

/-- The opaque Dolphin memory provider (`dolphin_memory_engine`): a byte read,
a 32-bit word read and a byte-range read, all at arbitrary addresses. -/
structure DolphinMem where
  read_byte : Nat → Nat
  read_word : Nat → Nat
  read_bytes : Nat → Nat → List Nat

/-- The error raised by the `validate_ptr` decorator in `pad.py`
(`IndexError(f"{name} is NULL!")`); the specification calls this kind
`NullPointerError`. -/
inductive DolphinError where
  | nullPointer
  deriving DecidableEq

/-- `dolphin_read_u32`, decorated with `validate_ptr`: reject a zero pointer,
otherwise `read_word(ptr) & 0xFFFFFFFF`. -/
def dolphin_read_u32 (m : DolphinMem) (ptr : Nat) : Except DolphinError Nat :=
  if ptr = 0 then .error .nullPointer
  else .ok (m.read_word ptr &&& 0xFFFFFFFF)

/-- The body of the `while True` loop of `dolphin_read_cstring`: read a byte,
advance the pointer, stop at a zero byte, otherwise append and continue.
`fuel` bounds the number of modelled iterations; the source has no bound, so
`none` means the loop is still running after `fuel` reads. -/
def cstring_loop (m : DolphinMem) (ptr : Nat) : Nat → Option (List Nat)
  | 0 => none
  | fuel + 1 =>
    let c := m.read_byte ptr
    if c = 0 then some []
    else (cstring_loop m (ptr + 1) fuel).map (fun rest => c :: rest)

/-- `dolphin_read_cstring`, decorated with `validate_ptr`.  The returned bytes
are the characters before the terminator (the source decodes them as ASCII). -/
def dolphin_read_cstring (m : DolphinMem) (ptr : Nat) (fuel : Nat) :
    Except DolphinError (Option (List Nat)) :=
  if ptr = 0 then .error .nullPointer
  else .ok (cstring_loop m ptr fuel)

/-- `dolphin_read_update_frame`, decorated with `validate_ptr`. -/
def dolphin_read_update_frame (m : DolphinMem) (p : Nat) : Except DolphinError Nat :=
  if p = 0 then .error .nullPointer
  else dolphin_read_u32 m (p + OFFSET_UPDATE_FRAME)

/-- `dolphin_read_recorder_mode`, decorated with `validate_ptr`. -/
def dolphin_read_recorder_mode (m : DolphinMem) (p : Nat) : Except DolphinError Nat :=
  if p = 0 then .error .nullPointer
  else dolphin_read_u32 m (p + OFFSET_RECORDER_MODE)

/-- `dolphin_read_stage_name`, decorated with `validate_ptr`: read the
stage-name pointer, then the C-string behind it. -/
def dolphin_read_stage_name (m : DolphinMem) (p : Nat) (fuel : Nat) :
    Except DolphinError (Option (List Nat)) :=
  if p = 0 then .error .nullPointer
  else do
    let snp ← dolphin_read_u32 m (p + OFFSET_STAGE_NAME_PTR)
    dolphin_read_cstring m snp fuel

/-- `dolphin_read_restart_id`, decorated with `validate_ptr`. -/
def dolphin_read_restart_id (m : DolphinMem) (p : Nat) : Except DolphinError Nat :=
  if p = 0 then .error .nullPointer
  else dolphin_read_u32 m (p + OFFSET_RESTART_ID)

/-- The status-reading loop of `dolphin_read_kpad_statuses`: `count` blocks of
0xF0 bytes, advancing the pointer by 0xF0 each time. -/
def read_statuses (m : DolphinMem) : Nat → Nat → List (List Nat)
  | _, 0 => []
  | sp, k + 1 => m.read_bytes sp 0xF0 :: read_statuses m (sp + 0xF0) k

/-- `dolphin_read_kpad_statuses`, decorated with `validate_ptr`. -/
def dolphin_read_kpad_statuses (m : DolphinMem) (p : Nat) :
    Except DolphinError (List (List Nat)) :=
  if p = 0 then .error .nullPointer
  else do
    let wrdi ← dolphin_read_u32 m (p + OFFSET_READ_DATA_INFO)
    let status_ptr ← dolphin_read_u32 m (wrdi + 0)
    let status_count ← dolphin_read_u32 m (wrdi + 4)
    .ok (read_statuses m status_ptr status_count)

/-- `struct.pack(">I", v)`: the four big-endian bytes of a 32-bit value. -/
def u32_be_bytes (v : Nat) : List Nat :=
  [v >>> 24 &&& 0xFF, v >>> 16 &&& 0xFF, v >>> 8 &&& 0xFF, v &&& 0xFF]

/-- The packed packet header of `write_packet_header`:
`index & 0xFF | (size & 0xFFFF) << 8 | (states & 0xFF) << 24`. -/
def packet_header (packet_index packet_size packet_states : Nat) : Nat :=
  (packet_index &&& 0xFF) ||| ((packet_size &&& 0xFFFF) <<< 8) |||
    ((packet_states &&& 0xFF) <<< 24)

/-- `write_packet_header`: the bytes appended to the stream. -/
def write_packet_header (packet_index packet_size packet_states : Nat) : List Nat :=
  u32_be_bytes (packet_header packet_index packet_size packet_states)

/-- Field extractors for the packed packet header, per the layout documented in
the specification: bits 0-7 index, bits 8-23 size, bits 24-31 state count. -/
def header_index_field (h : Nat) : Nat := h &&& 0xFF

def header_size_field (h : Nat) : Nat := (h >>> 8) &&& 0xFFFF

def header_count_field (h : Nat) : Nat := (h >>> 24) &&& 0xFF

/-- Decode the first four bytes of a buffer as a big-endian 32-bit value
(`struct.unpack(">I", ...)`). -/
def be_u32 (l : List Nat) : Nat :=
  (l.getD 0 0) <<< 24 ||| (l.getD 1 0) <<< 16 ||| (l.getD 2 0) <<< 8 ||| l.getD 3 0

/-- The padding size computed by `align_stream_32`:
`((tell + 31) & ~31) - tell`, with Python bitwise `&` and `~` on
arbitrary-precision integers (two complement), so `~31 = -32`. -/
def align_padding (tell : Nat) : Nat :=
  (Int.land ((tell : Int) + 31) (Int.lnot 31) - tell).toNat

/-- `align_stream_32`: append `align_padding` zero bytes to the stream. -/
def align_stream_32 (stream : List Nat) : List Nat :=
  stream ++ List.replicate (align_padding stream.length) 0

/-- The finalization of `record_pad_from_dolphin` (after the recording loop):
`write_packet_header(f, current_packet_index + 32, 192, 0)` followed by
`align_stream_32(f)`. -/
def finalize_pad_stream (stream : List Nat) (current_packet_index : Nat) : List Nat :=
  align_stream_32 (stream ++ write_packet_header (current_packet_index + 32) 192 0)

/-- One iteration of the frame-counter policy in the recording loop of
`record_pad_from_dolphin`.  The state is the `next_frame` variable, whose
Python initial value `-1` is modelled as `none`.  The loop body is:
if `next_frame == -1` set it to the frame just read; if the read frame
differs from `next_frame`, `continue` (no tick is consumed and nothing is
written); otherwise accept the frame and set
`next_frame = (current_frame + 1) & 0xFFFFFFFF`.
Returns the new `next_frame` and whether the frame was accepted. -/
def frame_step (next_frame : Option Nat) (current_frame : Nat) : Option Nat × Bool :=
  let nf := next_frame.getD current_frame
  if current_frame ≠ nf then (some nf, false)
  else (some ((current_frame + 1) &&& 0xFFFFFFFF), true)

/-- Run the frame policy over a sequence of observed frame-counter reads
(the recorder mode staying `RECORDING` throughout) and collect the accepted
frames in order.  The source loop has no abort path for unexpected counter
values: every read either accepts or spins. -/
def run_frames (next_frame : Option Nat) : List Nat → List Nat
  | [] => []
  | c :: rest =>
    let s := frame_step next_frame c
    (if s.2 then [c] else []) ++ run_frames s.1 rest

/-- A memory in which every byte read returns 1: no zero terminator exists
anywhere, so the C-string loop of the source never reaches its `break`. -/
def all_ones_mem : DolphinMem :=
  { read_byte := fun _ => 1, read_word := fun _ => 0, read_bytes := fun _ _ => [] }

/-- Clearing the low five bits (`x & ~31` on a non-negative value) rounds down
to a multiple of 32. -/
lemma ldiff_31_eq (m : Nat) : Nat.ldiff m 31 = m / 32 * 32 := by
  apply Nat.eq_of_testBit_eq
  intro i
  rw [Nat.testBit_ldiff]
  have h32 : m / 32 * 32 = (m >>> 5) <<< 5 := by
    rw [Nat.shiftLeft_eq, Nat.shiftRight_eq_div_pow]
  have h31 : (31 : Nat) = 2 ^ 5 - 1 := by norm_num
  rw [h32, Nat.testBit_shiftLeft, Nat.testBit_shiftRight, h31,
    Nat.testBit_two_pow_sub_one]
  by_cases h : i < 5
  · simp [h, Nat.not_le_of_lt h]
  · have h5 : 5 + (i - 5) = i := by omega
    simp [h, Nat.le_of_not_lt h, h5]

/-- `align_padding` in arithmetic form: distance to the next multiple of 32. -/
lemma align_padding_eq (t : Nat) : align_padding t = (t + 31) / 32 * 32 - t := by
  have h1 : ((t : Int) + 31) = ((t + 31 : Nat) : Int) := by push_cast; ring
  have h2 : Int.land ((t + 31 : Nat) : Int) (Int.lnot 31)
      = ((Nat.ldiff (t + 31) 31 : Nat) : Int) := rfl
  unfold align_padding
  rw [h1, h2, ldiff_31_eq]
  omega

/-- C7: after `align_stream_32` runs on the output stream, the total length is
a multiple of 32; the appended padding consists only of zero bytes, is fewer
than 32 bytes, and an already-aligned stream is left unchanged. -/
theorem align_stream_32_spec (stream : List Nat) :
    align_stream_32 stream
      = stream ++ List.replicate (align_padding stream.length) 0 ∧
    (align_stream_32 stream).length % 32 = 0 ∧
    align_padding stream.length < 32 ∧
    (stream.length % 32 = 0 → align_stream_32 stream = stream) := by
  refine ⟨rfl, ?_, ?_, ?_⟩
  · simp only [align_stream_32, List.length_append, List.length_replicate,
      align_padding_eq]
    omega
  · rw [align_padding_eq]; omega
  · intro h
    have hz : align_padding stream.length = 0 := by rw [align_padding_eq]; omega
    simp [align_stream_32, hz]

/-- Witness for C7 at a concrete aligned stream of 64 bytes. -/
theorem align_stream_32_spec_witness :
    (List.replicate 64 7).length % 32 = 0 ∧
    align_stream_32 (List.replicate 64 7) = List.replicate 64 7 :=
  ⟨by simp, (align_stream_32_spec (List.replicate 64 7)).2.2.2 (by simp)⟩

/-- The packed EOF header in arithmetic form. -/
lemma packet_header_eof (i : Nat) : packet_header i 192 0 = 49152 + i % 256 := by
  have h255 : (255 : Nat) = 2 ^ 8 - 1 := by norm_num
  have hm : i &&& 255 = i % 256 := by rw [h255, Nat.and_pow_two_sub_one_eq_mod]
  have hlt : i % 256 < 2 ^ 8 := by
    norm_num
    omega
  have h1 : (192 &&& 65535 : Nat) = 192 := by decide
  have h2 : (((0 : Nat) &&& 255) <<< 24) = 0 := by decide
  have h3 : (192 : Nat) <<< 8 = 2 ^ 8 * 192 := by decide
  unfold packet_header
  rw [show (0xFF : Nat) = 255 from rfl, show (0xFFFF : Nat) = 65535 from rfl,
    hm, h1, h2, Nat.or_zero, Nat.or_comm, h3, ← Nat.mul_add_lt_is_or hlt 192]

/-- C4 (counterexample to the claimed size field): the EOF packet emitted at
packet index 0 into an empty stream has size field 192, not 0. -/
theorem eof_packet_size_not_zero :
    header_size_field (be_u32 (finalize_pad_stream [] 0)) ≠ 0 := by decide

/-- C4 (amended): when the loop exits, the writer emits exactly one terminal
EOF packet followed only by zero padding; its size field is 192, its
state-count field is 0, and its index field is the next unused packet index
offset by the fixed constant 32, reduced modulo 256. -/
theorem eof_packet_format (stream : List Nat) (idx : Nat) :
    finalize_pad_stream stream idx
      = stream ++ write_packet_header (idx + 32) 192 0
          ++ List.replicate (align_padding (stream.length + 4)) 0 ∧
    header_size_field (packet_header (idx + 32) 192 0) = 192 ∧
    header_count_field (packet_header (idx + 32) 192 0) = 0 ∧
    header_index_field (packet_header (idx + 32) 192 0) = (idx + 32) % 256 := by
  have h := packet_header_eof (idx + 32)
  have hr : (idx + 32) % 256 < 256 := Nat.mod_lt _ (by norm_num)
  refine ⟨?_, ?_, ?_, ?_⟩
  · unfold finalize_pad_stream align_stream_32
    rw [show (stream ++ write_packet_header (idx + 32) 192 0).length
        = stream.length + 4 from by simp [write_packet_header, u32_be_bytes],
      List.append_assoc]
  · unfold header_size_field
    rw [h, Nat.shiftRight_eq_div_pow,
      show (49152 + (idx + 32) % 256) / 2 ^ 8 = 192 from by omega]
    decide
  · unfold header_count_field
    rw [h, Nat.shiftRight_eq_div_pow,
      show (49152 + (idx + 32) % 256) / 2 ^ 24 = 0 from by omega]
    decide
  · unfold header_index_field
    rw [h, show (0xFF : Nat) = 2 ^ 8 - 1 from rfl,
      Nat.and_pow_two_sub_one_eq_mod]
    omega

/-- C1 (behavior of the source at the claimed failing input): under the
lenient policy actually implemented, the observed frame sequence
`[5, 6, 6, 7, 9]` accepts 5, 6 and 7, treats the repeated 6 AND the
out-of-sequence 9 as no-op spins, and never aborts: a later read of the
expected 8 is still accepted.  The source has no `SynchronizationError`. -/
theorem record_loop_lenient_frames :
    run_frames none [5, 6, 6, 7, 9] = [5, 6, 7] ∧
    run_frames none [5, 6, 6, 7, 9, 8] = [5, 6, 7, 8] := by decide

/-- C8 (behavior of the source at the failing input): on a memory with no zero
terminator, the C-string loop never returns, no matter how many iterations it
is allowed: the source enforces no maximum scan length. -/
theorem cstring_loop_no_terminator_never_returns :
    ∀ (fuel ptr : Nat), cstring_loop all_ones_mem ptr fuel = none := by
  intro fuel
  induction fuel with
  | zero => intro ptr; rfl
  | succ n ih =>
    intro ptr
    have hb : all_ones_mem.read_byte ptr = 1 := rfl
    simp [cstring_loop, hb, ih (ptr + 1)]

/-- C9: every Dolphin memory accessor (the u32 read, the C-string read, and
the recorder-info field readers for frame counter, mode, stage name, restart
id, and status array), called with a base pointer equal to 0, fails with the
null-pointer error; the result does not depend on the memory contents, so no
memory read is performed. -/
theorem accessors_null_pointer (m : DolphinMem) (fuel : Nat) :
    dolphin_read_u32 m 0 = .error .nullPointer ∧
    dolphin_read_cstring m 0 fuel = .error .nullPointer ∧
    dolphin_read_update_frame m 0 = .error .nullPointer ∧
    dolphin_read_recorder_mode m 0 = .error .nullPointer ∧
    dolphin_read_stage_name m 0 fuel = .error .nullPointer ∧
    dolphin_read_restart_id m 0 = .error .nullPointer ∧
    dolphin_read_kpad_statuses m 0 = .error .nullPointer :=
  ⟨rfl, rfl, rfl, rfl, rfl, rfl, rfl⟩

/-- One big-endian 16-bit word of `calc_memory_checksum`:
`data[offset] << 8 | data[offset+1]`. -/
def word_at (data : List Nat) (o : Nat) : Nat :=
  data.getD o 0 <<< 8 ||| data.getD (o + 1) 0

/-- The loop of `calc_memory_checksum`.  `hi` and `lo` are Python integers:
`hi += word` keeps `hi` non-negative, `lo += ~word` drives `lo` negative, so
both are `Int` and `~word = Int.lnot word`.  The final
`(hi & 0xFFFF) << 16 | lo & 0xFFFF` masks both with `& 0xFFFF`, which on a
Python integer (also a negative one) is the Euclidean remainder mod 65536. -/
def checksum_go (data : List Nat) : Nat → Nat → Int → Int → Nat
  | 0, _, hi, lo => ((hi % 65536).toNat <<< 16) ||| (lo % 65536).toNat
  | n + 1, offset, hi, lo =>
    checksum_go data n (offset + 2)
      (hi + (word_at data offset : Int)) (lo + Int.lnot (word_at data offset))

/-- `calc_memory_checksum(data, offset, length)`: iterate over `length // 2`
big-endian words starting at `offset`. -/
def calc_memory_checksum (data : List Nat) (offset length : Nat) : Nat :=
  checksum_go data (length / 2) offset 0 0

/-- Reference checksum, following the wording of the specification: fold the
successive big-endian 16-bit words of the range into two accumulators
`hi += word` and `lo += bitwise_not(word)`, each truncated to 16 bits at
every step, and return `(hi & 0xFFFF) << 16 | (lo & 0xFFFF)`. -/
def ref_checksum (data : List Nat) (offset length : Nat) : Nat :=
  let words := (List.range (length / 2)).map (fun i => word_at data (offset + 2 * i))
  let hi := words.foldl (fun x w => (x + w) % 65536) 0
  let lo := words.foldl (fun x w => (x + (w ^^^ 0xFFFF)) % 65536) 0
  ((hi &&& 0xFFFF) <<< 16) ||| (lo &&& 0xFFFF)

/-- Adding a number below `2^k` to its `k`-bit complement gives `2^k - 1`. -/
lemma add_xor_two_pow_sub_one :
    ∀ (k w : Nat), w < 2 ^ k → w + (w ^^^ (2 ^ k - 1)) = 2 ^ k - 1 := by
  intro k
  induction k with
  | zero =>
    intro w hw
    interval_cases w
    simp
  | succ k ih =>
    intro w hw
    have hp : 2 ^ (k + 1) = 2 * 2 ^ k := by rw [Nat.pow_succ]; ring
    have hd : (w ^^^ (2 ^ (k + 1) - 1)) / 2 = (w / 2) ^^^ (2 ^ k - 1) := by
      rw [Nat.xor_div_two]
      congr 1
      omega
    have hX : ((w ^^^ (2 ^ (k + 1) - 1)) % 2 = 1)
        ↔ ¬ ((w % 2 = 1) ↔ ((2 ^ (k + 1) - 1) % 2 = 1)) := Nat.xor_mod_two_eq_one
    have hX2 : (w ^^^ (2 ^ (k + 1) - 1)) % 2 = 0 ∨ (w ^^^ (2 ^ (k + 1) - 1)) % 2 = 1 :=
      Nat.mod_two_eq_zero_or_one _
    have hw2 : w / 2 < 2 ^ k := by omega
    have ih2 := ih (w / 2) hw2
    omega

/-- 16-bit complement as subtraction, for values below `2^16`. -/
lemma xor_ones16_eq (w : Nat) (h : w < 65536) : w ^^^ 65535 = 65535 - w := by
  rw [show (65535 : Nat) = 2 ^ 16 - 1 from by norm_num]
  have h16 := add_xor_two_pow_sub_one 16 w (by norm_num; omega)
  omega

/-- The value read by `getD` from a byte buffer is below 256. -/
lemma getD_lt_256 (data : List Nat) (hb : ∀ b ∈ data, b < 256) (o : Nat) :
    data.getD o 0 < 256 := by
  by_cases h : o < data.length
  · rw [List.getD_eq_getElem data 0 h]
    exact hb _ (List.getElem_mem h)
  · rw [List.getD_eq_default data 0 (by omega)]
    norm_num

/-- Big-endian 16-bit words of a byte buffer are below `2^16`. -/
lemma word_at_lt (data : List Nat) (hb : ∀ b ∈ data, b < 256) (o : Nat) :
    word_at data o < 65536 := by
  have h1 := getD_lt_256 data hb o
  have h2 := getD_lt_256 data hb (o + 1)
  have hs : data.getD o 0 <<< 8 < 2 ^ 16 := by
    rw [Nat.shiftLeft_eq]
    omega
  have ho : data.getD o 0 <<< 8 ||| data.getD (o + 1) 0 < 2 ^ 16 :=
    Nat.or_lt_two_pow hs (by omega)
  unfold word_at
  omega

/-- The checksum loop agrees with the reference fold: running the loop with
integer accumulators congruent to the reference 16-bit accumulators produces
the reference packing. -/
lemma checksum_go_eq (data : List Nat) (hb : ∀ b ∈ data, b < 256) :
    ∀ (n off : Nat) (hi lo : Int) (h l : Nat),
      hi % 65536 = (h : Int) → lo % 65536 = (l : Int) →
      checksum_go data n off hi lo
        = ((((List.range n).map (fun i => word_at data (off + 2 * i))).foldl
              (fun x w => (x + w) % 65536) h) &&& 0xFFFF) <<< 16 |||
          ((((List.range n).map (fun i => word_at data (off + 2 * i))).foldl
              (fun x w => (x + (w ^^^ 0xFFFF)) % 65536) l) &&& 0xFFFF) := by
  intro n
  induction n with
  | zero =>
    intro off hi lo h l hh hl
    have hhi : (hi % 65536).toNat = h := by omega
    have hlo : (lo % 65536).toNat = l := by omega
    have hhb : h < 65536 := by omega
    have hlb : l < 65536 := by omega
    simp only [List.range_zero, List.map_nil, List.foldl_nil, checksum_go, hhi, hlo]
    rw [show (0xFFFF : Nat) = 2 ^ 16 - 1 from rfl,
      Nat.and_pow_two_sub_one_of_lt_two_pow (by norm_num; omega),
      Nat.and_pow_two_sub_one_of_lt_two_pow (by norm_num; omega)]
  | succ n ih =>
    intro off hi lo h l hh hl
    have hfun : ((fun i => word_at data (off + 2 * i)) ∘ Nat.succ)
        = (fun i => word_at data ((off + 2) + 2 * i)) := by
      funext i
      simp only [Function.comp]
      congr 1
      omega
    have hmap : (List.range (n + 1)).map (fun i => word_at data (off + 2 * i))
        = word_at data off
            :: (List.range n).map (fun i => word_at data ((off + 2) + 2 * i)) := by
      rw [List.range_succ_eq_map, List.map_cons, List.map_map, hfun]
      norm_num
    have hwlt : word_at data off < 65536 := word_at_lt data hb off
    have hlnot : Int.lnot (word_at data off : Int) = -((word_at data off : Int) + 1) := rfl
    rw [hmap]
    simp only [List.foldl_cons, checksum_go]
    rw [ih (off + 2) (hi + (word_at data off : Int))
      (lo + Int.lnot (word_at data off)) ((h + word_at data off) % 65536)
      ((l + (word_at data off ^^^ 0xFFFF)) % 65536) (by omega)
      (by rw [hlnot, show (0xFFFF : Nat) = 65535 from rfl,
            xor_ones16_eq _ hwlt]; omega)]

/-- The checksum loop reads only `data[off .. off + 2*n)`: buffers agreeing
there produce the same loop result. -/
lemma checksum_go_local (data data' : List Nat) :
    ∀ (n off : Nat) (hi lo : Int),
      (∀ i, off ≤ i → i < off + 2 * n → data.getD i 0 = data'.getD i 0) →
      checksum_go data n off hi lo = checksum_go data' n off hi lo := by
  intro n
  induction n with
  | zero => intro off hi lo _; rfl
  | succ n ih =>
    intro off hi lo hagree
    have hw : word_at data off = word_at data' off := by
      unfold word_at
      rw [hagree off (by omega) (by omega), hagree (off + 1) (by omega) (by omega)]
    simp only [checksum_go, hw]
    exact ih (off + 2) _ _ (fun i h1 h2 => hagree i (by omega) (by omega))

/-- C2: `calc_memory_checksum(data, offset, length)` equals the reference
checksum described by the specification (two 16-bit accumulators over the
successive big-endian words, `hi += word`, `lo += bitwise_not(word)`, both
truncated at every step, packed as `(hi & 0xFFFF) << 16 | (lo & 0xFFFF)`),
and the result depends only on the bytes in `[offset, offset + length)`.
Determinism is immediate: the model is a pure function of its arguments. -/
theorem calc_memory_checksum_spec (data data' : List Nat) (offset length : Nat)
    (hb : ∀ b ∈ data, b < 256) (_heven : length % 2 = 0)
    (_hrange : offset + length ≤ data.length) :
    calc_memory_checksum data offset length = ref_checksum data offset length ∧
    ((∀ i, offset ≤ i → i < offset + length → data.getD i 0 = data'.getD i 0) →
      calc_memory_checksum data offset length
        = calc_memory_checksum data' offset length) := by
  constructor
  · unfold calc_memory_checksum ref_checksum
    exact checksum_go_eq data hb (length / 2) offset 0 0 0 0 (by norm_num) (by norm_num)
  · intro hagree
    unfold calc_memory_checksum
    exact checksum_go_local data data' (length / 2) offset 0 0
      (fun i h1 h2 => hagree i h1 (by omega))

/-- Witness for C2 at a concrete six-byte buffer (and a second buffer agreeing
on the hashed range `[4, 6)`). -/
theorem calc_memory_checksum_spec_witness :
    calc_memory_checksum [0, 0, 0, 0, 171, 205] 4 2
        = ref_checksum [0, 0, 0, 0, 171, 205] 4 2 ∧
    calc_memory_checksum [0, 0, 0, 0, 171, 205] 4 2
        = calc_memory_checksum [9, 9, 9, 9, 171, 205, 77] 4 2 :=
  ⟨(calc_memory_checksum_spec [0, 0, 0, 0, 171, 205] [9, 9, 9, 9, 171, 205, 77]
      4 2 (by decide) (by decide) (by decide)).1,
   (calc_memory_checksum_spec [0, 0, 0, 0, 171, 205] [9, 9, 9, 9, 171, 205, 77]
      4 2 (by decide) (by decide) (by decide)).2 (by decide)⟩

/-- The body locals of one iteration of the section loop in
`extract_game_data_from_save_file`: `section_header = src.read(12)`,
`section_data_length = unpack_from(">I", section_header, 0x8)[0] - 12`,
`section_data = src.read(section_data_length)`.  A Python `read` with a
negative size (declared length below 12) returns all remaining bytes, and
`read` clamps to the bytes available. -/
def gd_section_payload (data : List Nat) (cur : Nat) : List Nat :=
  if be_u32 (((data.drop cur).take 12).drop 8) < 12 then data.drop (cur + 12)
  else (data.drop (cur + 12)).take (be_u32 (((data.drop cur).take 12).drop 8) - 12)

/-- The section loop of `extract_game_data_from_save_file`: read
`sections_count` sections, each a 12-byte header followed by its declared
payload; the cursor advances by the number of bytes actually read. -/
def gd_read_sections (data : List Nat) : Nat → Nat → List Nat
  | 0, _ => []
  | k + 1, cur =>
    (data.drop cur).take 12 ++ gd_section_payload data cur
      ++ gd_read_sections data k
          (cur + ((data.drop cur).take 12).length + (gd_section_payload data cur).length)

/-- Step 3 of `extract_game_data_from_save_file` (lines 324-342): seek to the
game-data block, read the 4-byte mini-header, take its byte 1 as the section
count, then copy exactly the declared sections, discarding everything after
them. -/
def truncate_game_data (data : List Nat) (off : Nat) : List Nat :=
  (data.drop off).take 4
    ++ gd_read_sections data (((data.drop off).take 4).getD 1 0) (off + 4)

/-- The section loop copies exactly the declared sections: if the buffer from
the cursor on consists of well-formed sections followed by anything, the loop
returns the concatenated sections and nothing else. -/
lemma gd_read_sections_spec (data : List Nat) :
    ∀ (sections : List (List Nat × List Nat)) (cur : Nat) (rest : List Nat),
      (∀ s ∈ sections, s.1.length = 12 ∧ be_u32 (s.1.drop 8) = 12 + s.2.length) →
      data.drop cur = (sections.map (fun s => s.1 ++ s.2)).flatten ++ rest →
      gd_read_sections data sections.length cur
        = (sections.map (fun s => s.1 ++ s.2)).flatten := by
  intro sections
  induction sections with
  | nil => intro cur rest _ _; rfl
  | cons s tail ih =>
    intro cur rest hwf hdrop
    obtain ⟨hs1, hs2⟩ := hwf s (by simp)
    have hdrop1 : data.drop cur
        = s.1 ++ (s.2 ++ ((tail.map (fun x => x.1 ++ x.2)).flatten ++ rest)) := by
      simpa [List.append_assoc] using hdrop
    have hhdr : (data.drop cur).take 12 = s.1 := by
      rw [hdrop1]; exact List.take_left' hs1
    have h1 : (data.drop cur).drop 12 = data.drop (cur + 12) := by
      rw [List.drop_drop, Nat.add_comm]
    have hd12 : data.drop (cur + 12)
        = s.2 ++ ((tail.map (fun x => x.1 ++ x.2)).flatten ++ rest) := by
      rw [← h1, hdrop1, List.drop_left' hs1]
    have hpay : gd_section_payload data cur = s.2 := by
      unfold gd_section_payload
      rw [hhdr, hs2, if_neg (by omega), hd12,
        show 12 + s.2.length - 12 = s.2.length from by omega]
      exact List.take_left s.2 _
    have hlen : ((data.drop cur).take 12).length = 12 := by rw [hhdr, hs1]
    have h2 : (data.drop (cur + 12)).drop s.2.length
        = data.drop (cur + 12 + s.2.length) := by
      rw [List.drop_drop, Nat.add_comm]
    have hrec := ih (cur + 12 + s.2.length) rest
      (fun x hx => hwf x (by simp [hx]))
      (by rw [← h2, hd12, List.drop_left' rfl])
    show (data.drop cur).take 12 ++ gd_section_payload data cur
        ++ gd_read_sections data tail.length
            (cur + ((data.drop cur).take 12).length
              + (gd_section_payload data cur).length) = _
    rw [hlen, hpay, hhdr, hrec]
    simp [List.append_assoc]

/-- C5: for a game-data blob made of a 4-byte mini-header declaring `N`
sections in byte 1, followed by `N` well-formed sections (each a 12-byte
header carrying its big-endian declared length, header included, at bytes
8:12, then `declared - 12` payload bytes) and arbitrary trailing garbage,
extraction returns exactly the mini-header plus the sections, i.e.
`4 + Σ declared` bytes, discarding the garbage. -/
theorem truncate_game_data_spec
    (mini : List Nat) (sections : List (List Nat × List Nat)) (garbage : List Nat)
    (hm : mini.length = 4)
    (hc : mini.getD 1 0 = sections.length)
    (hwf : ∀ s ∈ sections, s.1.length = 12 ∧ be_u32 (s.1.drop 8) = 12 + s.2.length) :
    truncate_game_data
        (mini ++ (sections.map (fun s => s.1 ++ s.2)).flatten ++ garbage) 0
      = mini ++ (sections.map (fun s => s.1 ++ s.2)).flatten ∧
    (mini ++ (sections.map (fun s => s.1 ++ s.2)).flatten).length
      = 4 + (sections.map (fun s => be_u32 (s.1.drop 8))).sum := by
  constructor
  · have hd0 : (mini ++ (sections.map (fun s => s.1 ++ s.2)).flatten ++ garbage).drop 0
        = mini ++ ((sections.map (fun s => s.1 ++ s.2)).flatten ++ garbage) := by
      simp [List.append_assoc]
    have hh : ((mini ++ (sections.map (fun s => s.1 ++ s.2)).flatten ++ garbage).drop 0).take 4
        = mini := by
      rw [hd0]; exact List.take_left' hm
    have hd4 : (mini ++ (sections.map (fun s => s.1 ++ s.2)).flatten ++ garbage).drop (0 + 4)
        = (sections.map (fun s => s.1 ++ s.2)).flatten ++ garbage := by
      rw [show 0 + 4 = 4 from rfl, ← hm]
      rw [List.append_assoc]
      exact List.drop_left mini _
    unfold truncate_game_data
    rw [hh, hc, gd_read_sections_spec _ sections (0 + 4) garbage hwf hd4]
  · rw [List.length_append, List.length_flatten, hm]
    have hmc : (sections.map (List.length ∘ fun s => s.1 ++ s.2))
        = sections.map (fun s => be_u32 (s.1.drop 8)) := by
      apply List.map_congr_left
      intro s hs
      obtain ⟨hs1, hs2⟩ := hwf s hs
      simp only [Function.comp, List.length_append]
      omega
    rw [List.map_map, hmc]

/-- Witness for C5: one declared section of total length 13 (12-byte header
plus one payload byte), three bytes of trailing garbage. -/
theorem truncate_game_data_spec_witness :
    truncate_game_data
        [0, 1, 0, 0, 0, 0, 0, 0, 0, 0, 0, 0, 0, 0, 0, 13, 42, 9, 9, 9] 0
      = [0, 1, 0, 0, 0, 0, 0, 0, 0, 0, 0, 0, 0, 0, 0, 13, 42] ∧
    ([0, 1, 0, 0, 0, 0, 0, 0, 0, 0, 0, 0, 0, 0, 0, 13, 42] : List Nat).length
      = 4 + 13 := by
  exact truncate_game_data_spec [0, 1, 0, 0]
    [([0, 0, 0, 0, 0, 0, 0, 0, 0, 0, 0, 13], [42])] [9, 9, 9]
    (by decide) (by decide) (by decide)

/-- The inner byte loop of `compress_kpad_states` for one status block:
`for i, chunk in enumerate(state)`, comparing against
`previous_kpad_state[i]`, recording differing bytes in `chunks`, setting bit
`i % 8` of mask byte `i // 8` in `blocks`, and overwriting
`previous_kpad_state[i]` in place.  Returns `(blocks, chunks, prev)`. -/
def compress_block_go (prev : List Nat) (rem : List Nat) (i : Nat)
    (blocks : List Nat) (chunks : List Nat) : List Nat × List Nat × List Nat :=
  match rem with
  | [] => (blocks, chunks, prev)
  | c :: rest =>
    if c ≠ prev.getD i 0 then
      compress_block_go (prev.set i c) rest (i + 1)
        (blocks.set (i / 8) (blocks.getD (i / 8) 0 ||| (1 <<< (i % 8))))
        (chunks ++ [c])
    else
      compress_block_go prev rest (i + 1) blocks chunks

/-- One iteration of the outer loop of `compress_kpad_states`:
`blocks = bytearray(33)`, `chunks = bytearray()`, then the byte loop. -/
def compress_block (state prev : List Nat) : List Nat × List Nat × List Nat :=
  compress_block_go prev state 0 (List.replicate 33 0) []

/-- `compress_kpad_states(kpad_states, previous_kpad_state)`: per state block,
append `blocks` then `chunks` to the output; the baseline buffer is threaded
through (the source mutates it in place).  Returns the output bytes and the
final baseline. -/
def compress_kpad_states (kpad_states : List (List Nat))
    (previous_kpad_state : List Nat) : List Nat × List Nat :=
  match kpad_states with
  | [] => ([], previous_kpad_state)
  | state :: rest =>
    let r := compress_block state previous_kpad_state
    let t := compress_kpad_states rest r.2.2
    (r.1 ++ r.2.1 ++ t.1, t.2)

/-- Specification view: the differing bytes of a block against a baseline, in
ascending index order. -/
def changed_bytes (state prev : List Nat) : List Nat :=
  ((List.range state.length).filter
    (fun i => state.getD i 0 != prev.getD i 0)).map (fun i => state.getD i 0)

/-- Specification view: mask byte `j`, with bit `b` set exactly when byte
`8*j + b` of the block differs from the baseline. -/
def mask_byte (state prev : List Nat) (j : Nat) : Nat :=
  (List.range 8).foldl
    (fun acc b =>
      if 8 * j + b < state.length ∧ state.getD (8 * j + b) 0 ≠ prev.getD (8 * j + b) 0
      then acc ||| (1 <<< b) else acc) 0

/-- Specification view: the 33 mask bytes of one block. -/
def mask_bytes (state prev : List Nat) : List Nat :=
  (List.range 33).map (mask_byte state prev)

/-- Specification view of the whole encoder output: per block in input order,
the mask bytes then the changed bytes, each block diffed against the rolling
baseline (the initial baseline for the first block, the previous block
thereafter). -/
def delta_blocks (states : List (List Nat)) (prev : List Nat) : List Nat :=
  (((prev :: states.dropLast).zip states).map
    (fun p => mask_bytes p.2 p.1 ++ changed_bytes p.2 p.1)).flatten

lemma getD_set_self (l : List Nat) (i a : Nat) (h : i < l.length) :
    (l.set i a).getD i 0 = a := by
  simp [List.getD_eq_getElem?_getD, List.getElem?_set_self h]

lemma getD_set_ne (l : List Nat) (i j a : Nat) (h : i ≠ j) :
    (l.set i a).getD j 0 = l.getD j 0 := by
  simp [List.getD_eq_getElem?_getD, List.getElem?_set_ne h]

lemma testBit_or_one_shift (a b t : Nat) :
    ((a ||| (1 <<< b)).testBit t) ↔ (a.testBit t ∨ t = b) := by
  rw [Nat.testBit_or, Nat.one_shiftLeft, Nat.testBit_two_pow]
  constructor
  · intro h
    rcases Bool.or_eq_true_iff.mp h with h | h
    · exact Or.inl h
    · exact Or.inr (by simpa using (of_decide_eq_true h).symm)
  · intro h
    rcases h with h | h
    · simp [h]
    · simp [h]

lemma or_one_shift_lt (a b : Nat) (ha : a < 256) (hb : b < 8) :
    a ||| (1 <<< b) < 256 := by
  have h1 : a < 2 ^ 8 := by norm_num; omega
  have h2 : 1 <<< b < 2 ^ 8 := by
    rw [Nat.one_shiftLeft]
    exact Nat.pow_lt_pow_right (by norm_num) hb
  have h3 := Nat.or_lt_two_pow h1 h2
  omega

/-- Bits of an or-accumulating fold: bit `t` is set exactly when it was set in
the accumulator or `t` occurs in the list and satisfies the predicate. -/
lemma foldl_orbit (P : Nat → Prop) [DecidablePred P] :
    ∀ (L : List Nat) (acc t : Nat),
      ((L.foldl (fun a b => if P b then a ||| (1 <<< b) else a) acc).testBit t
        ↔ (acc.testBit t ∨ (t ∈ L ∧ P t))) := by
  intro L
  induction L with
  | nil => intro acc t; simp
  | cons b L ih =>
    intro acc t
    rw [List.foldl_cons, ih]
    by_cases hpb : P b
    · rw [if_pos hpb]
      rw [testBit_or_one_shift]
      constructor
      · rintro ((h | h) | h)
        · exact Or.inl h
        · exact Or.inr ⟨by simp [h], h ▸ hpb⟩
        · exact Or.inr ⟨by simp [h.1], h.2⟩
      · rintro (h | ⟨hm, hp⟩)
        · exact Or.inl (Or.inl h)
        · rcases List.mem_cons.mp hm with h | h
          · exact Or.inl (Or.inr h)
          · exact Or.inr ⟨h, hp⟩
    · rw [if_neg hpb]
      constructor
      · rintro (h | h)
        · exact Or.inl h
        · exact Or.inr ⟨by simp [h.1], h.2⟩
      · rintro (h | ⟨hm, hp⟩)
        · exact Or.inl h
        · rcases List.mem_cons.mp hm with h | h
          · exact absurd (h ▸ hp) hpb
          · exact Or.inr ⟨h, hp⟩

/-- An or-accumulating fold over bit positions below 8 stays below 256. -/
lemma foldl_orbit_lt (P : Nat → Prop) [DecidablePred P] :
    ∀ (L : List Nat) (acc : Nat), acc < 256 → (∀ b ∈ L, b < 8) →
      (L.foldl (fun a b => if P b then a ||| (1 <<< b) else a) acc) < 256 := by
  intro L
  induction L with
  | nil => intro acc h _; simpa using h
  | cons b L ih =>
    intro acc h hb
    rw [List.foldl_cons]
    by_cases hpb : P b
    · rw [if_pos hpb]
      exact ih _ (or_one_shift_lt _ _ h (hb b (by simp))) (fun x hx => hb x (by simp [hx]))
    · rw [if_neg hpb]
      exact ih _ h (fun x hx => hb x (by simp [hx]))

/-- Bit characterization of the specification mask byte. -/
lemma mask_byte_testBit (state prev : List Nat) (j t : Nat) :
    ((mask_byte state prev j).testBit t)
      ↔ (t < 8 ∧ 8 * j + t < state.length ∧
          state.getD (8 * j + t) 0 ≠ prev.getD (8 * j + t) 0) := by
  unfold mask_byte
  rw [foldl_orbit
    (fun b => 8 * j + b < state.length ∧
      state.getD (8 * j + b) 0 ≠ prev.getD (8 * j + b) 0) (List.range 8) 0 t]
  simp [List.mem_range]

/-- The specification mask byte is below 256. -/
lemma mask_byte_lt (state prev : List Nat) (j : Nat) : mask_byte state prev j < 256 := by
  unfold mask_byte
  exact foldl_orbit_lt _ (List.range 8) 0 (by norm_num)
    (fun b hb => List.mem_range.mp hb)

/-- The byte loop leaves baseline positions below `i` unchanged and
overwrites positions `i, i+1, ...` with the block bytes (equal bytes are
already in place, differing bytes are stored). -/
lemma compress_block_go_prev :
    ∀ (rem : List Nat) (i : Nat) (prev blocks chunks : List Nat),
      i + rem.length ≤ prev.length →
      ((compress_block_go prev rem i blocks chunks).2.2.length = prev.length
      ∧ (∀ m, m < i →
          (compress_block_go prev rem i blocks chunks).2.2.getD m 0 = prev.getD m 0)
      ∧ (∀ k, k < rem.length →
          (compress_block_go prev rem i blocks chunks).2.2.getD (i + k) 0
            = rem.getD k 0)) := by
  intro rem
  induction rem with
  | nil =>
    intro i prev blocks chunks _
    exact ⟨rfl, fun m _ => rfl, fun k hk => absurd hk (by simp)⟩
  | cons c rest ih =>
    intro i prev blocks chunks hlen
    have hlen' : i + (rest.length + 1) ≤ prev.length := by simpa using hlen
    by_cases hc : c ≠ prev.getD i 0
    · rw [compress_block_go, if_pos hc]
      obtain ⟨ihl, ihlow, ihhigh⟩ := ih (i + 1) (prev.set i c)
        (blocks.set (i / 8) (blocks.getD (i / 8) 0 ||| (1 <<< (i % 8))))
        (chunks ++ [c]) (by rw [List.length_set]; omega)
      refine ⟨by rw [ihl, List.length_set], ?_, ?_⟩
      · intro m hm
        rw [ihlow m (by omega), getD_set_ne _ _ _ _ (by omega)]
      · intro k hk
        by_cases hk0 : k = 0
        · subst hk0
          have hil := ihlow i (by omega)
          rw [getD_set_self _ _ _ (show i < prev.length from by omega)] at hil
          simpa using hil
        · obtain ⟨n, rfl⟩ : ∃ n, k = n + 1 := ⟨k - 1, by omega⟩
          rw [show i + (n + 1) = (i + 1) + n from by omega,
            ihhigh n (by simpa using hk)]
          rfl
    · push_neg at hc
      rw [compress_block_go, if_neg (not_not_intro hc)]
      obtain ⟨ihl, ihlow, ihhigh⟩ := ih (i + 1) prev blocks chunks (by omega)
      refine ⟨ihl, ?_, ?_⟩
      · intro m hm
        exact ihlow m (by omega)
      · intro k hk
        by_cases hk0 : k = 0
        · subst hk0
          have hil := ihlow i (by omega)
          rw [← hc] at hil
          simpa using hil
        · obtain ⟨n, rfl⟩ : ∃ n, k = n + 1 := ⟨k - 1, by omega⟩
          rw [show i + (n + 1) = (i + 1) + n from by omega,
            ihhigh n (by simpa using hk)]
          rfl

/-- The byte loop appends exactly the differing bytes, in ascending index
order, to the chunk accumulator. -/
lemma compress_block_go_chunks :
    ∀ (rem : List Nat) (i : Nat) (prev blocks chunks : List Nat),
      (compress_block_go prev rem i blocks chunks).2.1
        = chunks ++ ((List.range rem.length).filter
            (fun k => rem.getD k 0 != prev.getD (i + k) 0)).map
              (fun k => rem.getD k 0) := by
  intro rem
  induction rem with
  | nil => intro i prev blocks chunks; simp [compress_block_go]
  | cons c rest ih =>
    intro i prev blocks chunks
    have hPsucc : ((fun k => (c :: rest).getD k 0 != prev.getD (i + k) 0) ∘ Nat.succ)
        = (fun k => rest.getD k 0 != prev.getD ((i + 1) + k) 0) := by
      funext k
      simp only [Function.comp, List.getD_cons_succ]
      congr 2
      omega
    have hFsucc : ((fun k => (c :: rest).getD k 0) ∘ Nat.succ)
        = (fun k => rest.getD k 0) := by
      funext k
      simp only [Function.comp, List.getD_cons_succ]
    have hlist : ((List.range (c :: rest).length).filter
          (fun k => (c :: rest).getD k 0 != prev.getD (i + k) 0)).map
            (fun k => (c :: rest).getD k 0)
        = (if (c != prev.getD i 0) = true then [c] else [])
          ++ ((List.range rest.length).filter
              (fun k => rest.getD k 0 != prev.getD ((i + 1) + k) 0)).map
                (fun k => rest.getD k 0) := by
      rw [List.length_cons, List.range_succ_eq_map, List.filter_cons,
        List.filter_map, hPsucc]
      by_cases hcb : ((c :: rest).getD 0 0 != prev.getD (i + 0) 0) = true
      · rw [if_pos hcb]
        have hcb2 : (c != prev.getD i 0) = true := by simpa using hcb
        rw [if_pos hcb2, List.map_cons, List.map_map, hFsucc]
        simp
      · rw [if_neg hcb]
        have hcb2 : ¬ ((c != prev.getD i 0) = true) := by simpa using hcb
        rw [if_neg hcb2, List.map_map, hFsucc]
        simp
    rw [hlist]
    by_cases hc : c ≠ prev.getD i 0
    · rw [compress_block_go, if_pos hc, ih]
      have hset : (fun k => rest.getD k 0 != (prev.set i c).getD ((i + 1) + k) 0)
          = (fun k => rest.getD k 0 != prev.getD ((i + 1) + k) 0) := by
        funext k
        rw [getD_set_ne _ _ _ _ (by omega)]
      rw [hset, if_pos (bne_iff_ne.mpr hc)]
      simp [List.append_assoc]
    · push_neg at hc
      rw [compress_block_go, if_neg (not_not_intro hc), ih]
      rw [if_neg (by simp [hc])]
      simp

/-- The byte loop sets bit `i % 8` of mask byte `i / 8` exactly for the
differing byte indices `i`, leaving all previously set bits in place. -/
lemma compress_block_go_blocks :
    ∀ (rem : List Nat) (i : Nat) (prev blocks chunks : List Nat),
      i + rem.length ≤ 8 * blocks.length →
      ((compress_block_go prev rem i blocks chunks).1.length = blocks.length
      ∧ ∀ (j t : Nat), j < blocks.length →
          (((compress_block_go prev rem i blocks chunks).1.getD j 0).testBit t
            ↔ ((blocks.getD j 0).testBit t ∨
               (t < 8 ∧ i ≤ 8 * j + t ∧ 8 * j + t < i + rem.length ∧
                rem.getD (8 * j + t - i) 0 ≠ prev.getD (8 * j + t) 0)))) := by
  intro rem
  induction rem with
  | nil =>
    intro i prev blocks chunks _
    refine ⟨rfl, fun j t _ => ?_⟩
    constructor
    · intro h
      exact Or.inl h
    · rintro (h | ⟨-, h1, h2, -⟩)
      · exact h
      · simp at h2
        omega
  | cons c rest ih =>
    intro i prev blocks chunks hbound
    have hlen : i + (rest.length + 1) ≤ 8 * blocks.length := by simpa using hbound
    have hcl : (c :: rest).length = rest.length + 1 := by simp
    by_cases hc : c ≠ prev.getD i 0
    · rw [compress_block_go, if_pos hc]
      have hidiv : i / 8 < blocks.length := by omega
      obtain ⟨ihl, ihbit⟩ := ih (i + 1) (prev.set i c)
        (blocks.set (i / 8) (blocks.getD (i / 8) 0 ||| (1 <<< (i % 8))))
        (chunks ++ [c]) (by rw [List.length_set]; omega)
      refine ⟨by rw [ihl, List.length_set], ?_⟩
      intro j t hj
      rw [ihbit j t (by rw [List.length_set]; exact hj)]
      by_cases hX : t < 8 ∧ 8 * j + t = i
      · obtain ⟨ht8, hXe⟩ := hX
        have hjd : i / 8 = j := by omega
        have htm : t = i % 8 := by omega
        have hbit : ((blocks.set (i / 8)
              (blocks.getD (i / 8) 0 ||| (1 <<< (i % 8)))).getD j 0).testBit t = true := by
          rw [← hjd, getD_set_self _ _ _ hidiv]
          exact (testBit_or_one_shift _ _ _).mpr (Or.inr htm)
        constructor
        · intro _
          refine Or.inr ⟨ht8, by omega, by omega, ?_⟩
          rw [hXe, Nat.sub_self]
          simpa using hc
        · intro _
          exact Or.inl hbit
      · have hbit : ((blocks.set (i / 8)
              (blocks.getD (i / 8) 0 ||| (1 <<< (i % 8)))).getD j 0).testBit t
            ↔ (blocks.getD j 0).testBit t := by
          by_cases hjd : i / 8 = j
          · rw [← hjd, getD_set_self _ _ _ hidiv, testBit_or_one_shift]
            constructor
            · rintro (h | h)
              · exact h
              · exact absurd ⟨by omega, by omega⟩ hX
            · intro h
              exact Or.inl h
          · rw [getD_set_ne _ _ _ _ hjd]
        constructor
        · rintro (h | ⟨ht8, h1, h2, hdiff⟩)
          · exact Or.inl (hbit.mp h)
          · have hX8 : 8 * j + t ≠ i := by omega
            refine Or.inr ⟨ht8, by omega, by omega, ?_⟩
            rw [getD_set_ne _ _ _ _ (Ne.symm hX8)] at hdiff
            rw [show 8 * j + t - i = (8 * j + t - (i + 1)) + 1 from by omega]
            simpa using hdiff
        · rintro (h | ⟨ht8, h1, h2, hdiff⟩)
          · exact Or.inl (hbit.mpr h)
          · have hX8 : 8 * j + t ≠ i := fun hEq => hX ⟨ht8, hEq⟩
            refine Or.inr ⟨ht8, by omega, by omega, ?_⟩
            rw [getD_set_ne _ _ _ _ (Ne.symm hX8)]
            rw [show 8 * j + t - i = (8 * j + t - (i + 1)) + 1 from by omega] at hdiff
            simpa using hdiff
    · push_neg at hc
      rw [compress_block_go, if_neg (not_not_intro hc)]
      obtain ⟨ihl, ihbit⟩ := ih (i + 1) prev blocks chunks (by omega)
      refine ⟨ihl, ?_⟩
      intro j t hj
      rw [ihbit j t hj]
      constructor
      · rintro (h | ⟨ht8, h1, h2, hdiff⟩)
        · exact Or.inl h
        · refine Or.inr ⟨ht8, by omega, by omega, ?_⟩
          rw [show 8 * j + t - i = (8 * j + t - (i + 1)) + 1 from by omega]
          simpa using hdiff
      · rintro (h | ⟨ht8, h1, h2, hdiff⟩)
        · exact Or.inl h
        · by_cases hX8 : 8 * j + t = i
          · exfalso
            rw [hX8, Nat.sub_self] at hdiff
            exact hdiff (by simpa using hc)
          · refine Or.inr ⟨ht8, by omega, by omega, ?_⟩
            rw [show 8 * j + t - i = (8 * j + t - (i + 1)) + 1 from by omega] at hdiff
            simpa using hdiff

/-- Mask bytes produced by the byte loop stay below 256. -/
lemma compress_block_go_vals :
    ∀ (rem : List Nat) (i : Nat) (prev blocks chunks : List Nat),
      (∀ x ∈ blocks, x < 256) →
      ∀ x ∈ (compress_block_go prev rem i blocks chunks).1, x < 256 := by
  intro rem
  induction rem with
  | nil => intro i prev blocks chunks hb; exact hb
  | cons c rest ih =>
    intro i prev blocks chunks hb
    by_cases hc : c ≠ prev.getD i 0
    · rw [compress_block_go, if_pos hc]
      apply ih
      intro x hx
      rcases List.mem_or_eq_of_mem_set hx with h | h
      · exact hb x h
      · subst h
        exact or_one_shift_lt _ _ (getD_lt_256 blocks hb (i / 8))
          (Nat.mod_lt _ (by norm_num))
    · push_neg at hc
      rw [compress_block_go, if_neg (not_not_intro hc)]
      exact ih _ _ _ _ hb

/-- One outer-loop iteration produces exactly the specification mask bytes and
changed bytes, and overwrites the baseline with the block. -/
lemma compress_block_spec (state prev : List Nat)
    (hst : state.length = 240) (hp : prev.length = 240) :
    compress_block state prev
      = (mask_bytes state prev, changed_bytes state prev, state) := by
  unfold compress_block
  have h3 : (compress_block_go prev state 0 (List.replicate 33 0) []).2.2 = state := by
    obtain ⟨hl, hlow, hhigh⟩ := compress_block_go_prev state 0 prev
      (List.replicate 33 0) [] (by omega)
    apply List.ext_getElem (by rw [hl, hp, hst])
    intro n h1n h2n
    calc (compress_block_go prev state 0 (List.replicate 33 0) []).2.2[n]
        = (compress_block_go prev state 0 (List.replicate 33 0) []).2.2.getD n 0 :=
          (List.getD_eq_getElem _ 0 _).symm
      _ = state.getD n 0 := by
          have hh := hhigh n (by omega)
          rw [Nat.zero_add] at hh
          exact hh
      _ = state[n] := List.getD_eq_getElem _ 0 _
  have h2 : (compress_block_go prev state 0 (List.replicate 33 0) []).2.1
      = changed_bytes state prev := by
    rw [compress_block_go_chunks state 0 prev (List.replicate 33 0) [],
      List.nil_append]
    unfold changed_bytes
    have hfn : (fun k => state.getD k 0 != prev.getD (0 + k) 0)
        = (fun k => state.getD k 0 != prev.getD k 0) := by
      funext k
      rw [Nat.zero_add]
    rw [hfn]
  have h1 : (compress_block_go prev state 0 (List.replicate 33 0) []).1
      = mask_bytes state prev := by
    obtain ⟨hbl, hbit⟩ := compress_block_go_blocks state 0 prev
      (List.replicate 33 0) [] (by simp; omega)
    have hvals := compress_block_go_vals state 0 prev (List.replicate 33 0) []
      (by intro x hx; rcases List.eq_of_mem_replicate hx with rfl; norm_num)
    apply List.ext_getElem (by rw [hbl]; simp [mask_bytes])
    intro n h1n h2n
    have hn33 : n < 33 := by
      have hml : (mask_bytes state prev).length = 33 := by simp [mask_bytes]
      omega
    have hmn : (mask_bytes state prev)[n] = mask_byte state prev n := by
      unfold mask_bytes
      simp
    rw [hmn]
    apply Nat.eq_of_testBit_eq
    intro t
    by_cases ht : t < 8
    · have hcode := hbit n t (by simpa using hn33)
      have hrep : ((List.replicate 33 0).getD n 0 : Nat) = 0 := by
        rw [List.getD_eq_getElem?_getD, List.getElem?_replicate]
        by_cases h : n < 33
        · rw [if_pos h]
          rfl
        · rw [if_neg h]
          rfl
      rw [hrep, Nat.zero_testBit] at hcode
      have hgd : (compress_block_go prev state 0 (List.replicate 33 0) []).1[n]
          = (compress_block_go prev state 0 (List.replicate 33 0) []).1.getD n 0 :=
        (List.getD_eq_getElem _ 0 _).symm
      rw [hgd, Bool.eq_iff_iff, hcode, mask_byte_testBit]
      constructor
      · rintro (h | ⟨ht8, -, hlt, hne⟩)
        · simp at h
        · rw [Nat.sub_zero] at hne
          exact ⟨ht8, by omega, hne⟩
      · rintro ⟨ht8, hlt, hne⟩
        exact Or.inr ⟨ht8, by omega, by omega, by rw [Nat.sub_zero]; exact hne⟩
    · have hclt : (compress_block_go prev state 0 (List.replicate 33 0) []).1[n] < 2 ^ t := by
        have := hvals _ (List.getElem_mem h1n)
        have hle : (2 : Nat) ^ 8 ≤ 2 ^ t := Nat.pow_le_pow_right (by norm_num) (by omega)
        omega
      have hslt : mask_byte state prev n < 2 ^ t := by
        have := mask_byte_lt state prev n
        have hle : (2 : Nat) ^ 8 ≤ 2 ^ t := Nat.pow_le_pow_right (by norm_num) (by omega)
        omega
      rw [Nat.testBit_lt_two_pow hclt, Nat.testBit_lt_two_pow hslt]
  calc compress_block_go prev state 0 (List.replicate 33 0) []
      = ((compress_block_go prev state 0 (List.replicate 33 0) []).1,
         (compress_block_go prev state 0 (List.replicate 33 0) []).2.1,
         (compress_block_go prev state 0 (List.replicate 33 0) []).2.2) := rfl
    _ = (mask_bytes state prev, changed_bytes state prev, state) := by rw [h1, h2, h3]

/-- Unfolding `delta_blocks` one block at a time. -/
lemma delta_blocks_cons (s : List Nat) (rest : List (List Nat)) (prev : List Nat) :
    delta_blocks (s :: rest) prev
      = (mask_bytes s prev ++ changed_bytes s prev) ++ delta_blocks rest s := by
  unfold delta_blocks
  cases rest with
  | nil => simp
  | cons r rs => simp [List.dropLast_cons₂]

/-- The encoder equals its specification view and ends with the last block as
baseline. -/
lemma compress_kpad_states_eq (states : List (List Nat)) :
    ∀ prev : List Nat, (∀ s ∈ states, s.length = 240) → prev.length = 240 →
      compress_kpad_states states prev
        = (delta_blocks states prev, states.getLastD prev) := by
  induction states with
  | nil =>
    intro prev _ _
    simp [compress_kpad_states, delta_blocks]
  | cons s rest ih =>
    intro prev hs hp
    have hs240 : s.length = 240 := hs s (by simp)
    have hcb := compress_block_spec s prev hs240 hp
    simp only [compress_kpad_states, hcb]
    rw [ih s (fun x hx => hs x (by simp [hx])) hs240]
    rw [delta_blocks_cons, List.getLastD_cons]

/-- C3: the encoder output is, per block in input order, a 33-byte bitmask in
which bit `i % 8` of mask byte `i / 8` is set exactly for the byte indices
`i` that differ from the rolling baseline, followed by precisely those
differing bytes in ascending index order; a block equal to its baseline
contributes an all-zero mask and no changed bytes. -/
theorem compress_kpad_states_spec (states : List (List Nat)) (prev : List Nat)
    (hs : ∀ s ∈ states, s.length = 240) (hp : prev.length = 240) :
    (compress_kpad_states states prev).1 = delta_blocks states prev
    ∧ (∀ (s p : List Nat) (j t : Nat), j < 33 → t < 8 →
        (((mask_bytes s p).getD j 0).testBit t
          ↔ (8 * j + t < s.length ∧ s.getD (8 * j + t) 0 ≠ p.getD (8 * j + t) 0)))
    ∧ (∀ s : List Nat, mask_bytes s s = List.replicate 33 0 ∧ changed_bytes s s = []) := by
  refine ⟨by rw [compress_kpad_states_eq states prev hs hp], ?_, ?_⟩
  · intro s p j t hj ht
    have hgd : (mask_bytes s p).getD j 0 = mask_byte s p j := by
      rw [List.getD_eq_getElem _ 0 (by simpa [mask_bytes] using hj)]
      unfold mask_bytes
      simp
    rw [hgd, mask_byte_testBit]
    constructor
    · rintro ⟨-, h1, h2⟩
      exact ⟨h1, h2⟩
    · rintro ⟨h1, h2⟩
      exact ⟨ht, h1, h2⟩
  · intro s
    constructor
    · have hz : ∀ j, mask_byte s s j = 0 := by
        intro j
        apply Nat.eq_of_testBit_eq
        intro t
        rw [Nat.zero_testBit]
        rcases hb : (mask_byte s s j).testBit t with hv | hv
        · rfl
        · exact absurd ((mask_byte_testBit s s j t).mp hb).2.2 (by simp)
      unfold mask_bytes
      apply List.ext_getElem (by simp)
      intro n h1n h2n
      rw [List.getElem_map, List.getElem_range, hz, List.getElem_replicate]
    · unfold changed_bytes
      simp

/-- Witness for C3 at a concrete 240-byte block against a zero baseline. -/
theorem compress_kpad_states_spec_witness :
    (compress_kpad_states [List.replicate 240 1] (List.replicate 240 0)).1
      = delta_blocks [List.replicate 240 1] (List.replicate 240 0) :=
  (compress_kpad_states_spec [List.replicate 240 1] (List.replicate 240 0)
    (by intro s hs
        simp only [List.mem_singleton] at hs
        subst hs
        simp only [List.length_replicate])
    (by simp only [List.length_replicate])).1

/-- C10: the encoder only mutates the baseline buffer: after a call on a
non-empty list of 240-byte blocks the baseline equals the last input block
(and `getLastD` covers the empty case, where it is unchanged); on an empty
list the output is empty and the baseline untouched.  The input blocks are
Python `bytes` (immutable) and the model is a pure function of them. -/
theorem compress_kpad_states_baseline (states : List (List Nat)) (prev : List Nat)
    (hs : ∀ s ∈ states, s.length = 240) (hp : prev.length = 240) :
    (compress_kpad_states states prev).2 = states.getLastD prev
    ∧ compress_kpad_states [] prev = ([], prev) :=
  ⟨by rw [compress_kpad_states_eq states prev hs hp], rfl⟩

/-- Witness for C10 at the same concrete block. -/
theorem compress_kpad_states_baseline_witness :
    (compress_kpad_states [List.replicate 240 1] (List.replicate 240 0)).2
      = [List.replicate 240 1].getLastD (List.replicate 240 0) :=
  (compress_kpad_states_baseline [List.replicate 240 1] (List.replicate 240 0)
    (by intro s hs
        simp only [List.mem_singleton] at hs
        subst hs
        simp only [List.length_replicate])
    (by simp only [List.length_replicate])).1

end GalaxyPad
